import Mathlib

/-!
# Verification of the superdeduper image deduplicator core

A shallow embedding of `src/main.rs` (the pHash perceptual-hash image
deduplicator) together with proofs about it.

The embedding covers:
* the perceptual-hash computation `PHash::new` (the DCT step, modelled over
  the real numbers in place of `f32`; the pixel source is the 32×32 luma
  grid produced by the external image library's grayscale + nearest-neighbor
  resize, which is outside this repository);
* the Hamming-distance metric `PHash::distance` and threshold
  `PHash::is_similar`;
* extension-based format detection `supported_extension`;
* output-name construction `new_filename` and the per-group naming loop
  in `main`;
* the greedy stack-based clustering loop in `main`, including the final
  sort of groups by descending size.
-/

namespace Superdeduper

/-! ## Fingerprints: Hamming distance and the similarity threshold

`PHash` wraps a `u64`; we model the hash value as a natural number < 2^64.
`u64::count_ones` is the population count of the 64-bit word, modelled as
the number of set bits among positions 0..63. -/

/-- Population count of a 64-bit word (model of `u64::count_ones`). -/
def count_ones (x : Nat) : Nat :=
  ((List.range 64).filter (fun i => x.testBit i)).length

/-- Model of `PHash::distance`: Hamming distance of the two hash words, computed in the
source as `(h1 ^ h2).count_ones()`. -/
def distance (h1 h2 : Nat) : Nat :=
  count_ones (h1 ^^^ h2)

/-- Model of `PHash::is_similar`: true iff `distance < 8`. -/
def is_similar (d : Nat) : Bool :=
  d < 8

/-! ## Processed images and the clustering loop of `main` -/

/-- Record `ProcessedImage` from the source: signature (the `PHash` word), original
path, and `size = width * height`. -/
structure ProcessedImage where
  sig : Nat
  path : String
  size : Nat
  deriving DecidableEq, Repr, Inhabited

/-- One pass of the inner `loop` of `main`'s clustering: the working set is
scanned from its end toward its start and every image similar to `image`
(the anchor) is removed and pushed onto `neighbors`.

Here the list argument is the working set *reversed* (head = the element at
the top of the `Vec`, scanned first); the first component is the `neighbors`
vector in push order, the second is the remaining (still reversed) working
set. -/
def scanRev (anchor : ProcessedImage) : List ProcessedImage →
    List ProcessedImage × List ProcessedImage
  | [] => ([], [])
  | x :: xs =>
    let p := scanRev anchor xs
    if is_similar (distance x.sig anchor.sig) then (x :: p.1, p.2)
    else (p.1, x :: p.2)

/-- The outer `while !processed_images.is_empty()` loop of `main`, on the
reversed working set (head = last `Vec` element, i.e. the one `pop` takes).
`fuel` bounds the number of iterations; `fuel = length` always suffices
because each iteration pops the anchor. -/
def clusterAux : Nat → List ProcessedImage → List (List ProcessedImage)
  | 0, _ => []
  | _, [] => []
  | fuel + 1, anchor :: rest =>
    let p := scanRev anchor rest
    (p.1 ++ [anchor]) :: clusterAux fuel p.2

/-- Clustering of `main` on the `Vec` contents in index order: `pop` takes the
last element, so we run `clusterAux` on the reversed list. -/
def cluster (l : List ProcessedImage) : List (List ProcessedImage) :=
  clusterAux l.reverse.length l.reverse

/-- Stable insertion of a group into a list of groups sorted by descending
length: the group goes in front of the first strictly shorter group (model of
one step of `Vec::sort_by(|a, b| b.len().cmp(&a.len()))`, which is a stable
descending sort by length). -/
def insertByLen (a : List ProcessedImage) :
    List (List ProcessedImage) → List (List ProcessedImage)
  | [] => [a]
  | b :: bs => if b.length > a.length then b :: insertByLen a bs else a :: b :: bs

/-- Model of `dupes.sort_by(|a, b| b.len().cmp(&a.len()))`: stable sort of the groups
by descending member count. -/
def sortGroups (gs : List (List ProcessedImage)) : List (List ProcessedImage) :=
  gs.foldr insertByLen []

/-- The full grouping pipeline of `main`: cluster, then sort groups by
descending size. -/
def dedupe (l : List ProcessedImage) : List (List ProcessedImage) :=
  sortGroups (cluster l)

/-! ## Format detection and output naming

`supported_extension` takes a `&Path` in the source; here a path is an opaque
`String` and `pathExtension` models Rust's `Path::extension` on plain file
names (the portion after the last `.` of the name; `None` when there is no
`.` or when the only `.` is a leading one). -/

/-- Enumeration `image::ImageFormat`, restricted to the four variants the
program recognizes. -/
inductive ImageFormat
  | GIF
  | PNG
  | JPEG
  | WEBP
  deriving DecidableEq, Repr

/-- Split a list of characters at every `.` (auxiliary for
`pathExtension`; structural so that the kernel can evaluate it). -/
def splitDot : List Char → List (List Char)
  | [] => [[]]
  | c :: cs =>
    if c = '.' then [] :: splitDot cs
    else
      match splitDot cs with
      | [] => [[c]]
      | h :: t => (c :: h) :: t

/-- Model of `Path::extension` for a plain file name: the portion after the
last `.`; `none` when there is no `.` or when the only `.` is the leading
one (hidden files). -/
def pathExtension (p : String) : Option String :=
  if (splitDot p.data).length ≤ 1 then none
  else if (splitDot p.data).length = 2 ∧ (splitDot p.data).headD [] = [] then none
  else (splitDot p.data).getLast?.map String.mk

/-- Model of `u8::to_ascii_lowercase` on one character. -/
def asciiLower (c : Char) : Char :=
  if 65 ≤ c.toNat ∧ c.toNat ≤ 90 then Char.ofNat (c.toNat + 32) else c

/-- Model of `str::to_ascii_lowercase`. -/
def toAsciiLower (s : String) : String :=
  String.mk (s.data.map asciiLower)

/-- The `match` arms of `supported_extension` (applied to the lowercased
extension). -/
def extFormat : String → Option ImageFormat
  | "gif" => some ImageFormat.GIF
  | "png" => some ImageFormat.PNG
  | "png-large" => some ImageFormat.PNG
  | "jpg" => some ImageFormat.JPEG
  | "jpeg" => some ImageFormat.JPEG
  | "jpe" => some ImageFormat.JPEG
  | "jpg-large" => some ImageFormat.JPEG
  | "webp" => some ImageFormat.WEBP
  | _ => none

/-- Model of `supported_extension` from the source: take the path's extension,
ASCII-lowercase it, and look it up. -/
def supported_extension (path : String) : Option ImageFormat :=
  match pathExtension path with
  | none => none
  | some ext => extFormat (toAsciiLower ext)

/-- The extension `new_filename` sets for each recognized format. -/
def formatExtension : ImageFormat → String
  | ImageFormat.GIF => "gif"
  | ImageFormat.PNG => "png"
  | ImageFormat.JPEG => "jpg"
  | ImageFormat.WEBP => "webp"

/-- One hex digit, lowercase (`0`-`9`, `a`-`f`). -/
def hexDigit (d : Nat) : Char :=
  if d < 10 then Char.ofNat (48 + d) else Char.ofNat (87 + d)

/-- Rendering `format!("{:016x}", n)` of a `u64`: 16 lowercase hex digits, zero
padded, most significant first. -/
def toHex16 (n : Nat) : String :=
  String.mk ((List.range 16).map (fun i => hexDigit (n / 16 ^ (15 - i) % 16)))

/-- Model of `new_filename` from the source, producing the file-name component (the
target-directory prefix is dropped, being irrelevant to every claim): the
basename is `"{canon}-{version}-{this}"` for `version != 0` and `"{canon}"`
for `version == 0`, and `set_extension` appends the extension derived from
the recognized format of the old path (the hex/dash basename contains no
`.`, so `set_extension` purely appends). -/
def new_filename (old_path : String) (canon_sig this_sig : Nat) (version : Nat) : String :=
  let base := if version ≠ 0
    then toHex16 canon_sig ++ "-" ++ toString version ++ "-" ++ toHex16 this_sig
    else toHex16 canon_sig
  match supported_extension old_path with
  | some fmt => base ++ "." ++ formatExtension fmt
  | none => base

/-- The naming loop of `main` over one group: `canon` is the signature of the
group's last element, member `i` (from `enumerate`) gets
`new_filename(path_i, canon, sig_i, i)`. -/
def assignNames (group : List ProcessedImage) : List String :=
  match group.getLast? with
  | none => []
  | some canon => group.enum.map (fun p => new_filename p.2.path canon.sig p.2.sig p.1)

/-- Modelled from the spec's naming rules, amended to what the code does:
the basename is the bare canonical hex for `rank = 0` (the group's *first*
member in iteration order) and `"{canon}-{rank}-{member}"` for `rank > 0`;
the extension is derived from the member's recognized format (nothing is
appended when the format is unrecognized). -/
def specName (canon member : ProcessedImage) (rank : Nat) : String :=
  (if rank = 0 then toHex16 canon.sig
   else toHex16 canon.sig ++ "-" ++ toString rank ++ "-" ++ toHex16 member.sig)
  ++ (match supported_extension member.path with
      | some fmt => "." ++ formatExtension fmt
      | none => "")

/-! ## The perceptual hash `PHash::new`

The source computes over `f32`; the model idealizes `f32` as `ℝ` (each
floating operation replaced by the exact real one). The input is the 32×32
luma grid that `image.grayscale().resize_exact(32, 32, Nearest)` (external
image library) hands to the loop via `get_pixel(n1, n2)`; `luma n1 n2` is the
first channel of that pixel as a real number.

The accumulation loops are embedded as left folds over their index ranges in
source order. -/

/-- Table entry `cosines[8 * i + j] = cos(PI / 32 * (i + 0.5) * j)`. -/
noncomputable def cosines (n k : ℕ) : ℝ :=
  Real.cos (Real.pi / 32 * ((n : ℝ) + 0.5) * (k : ℝ))

/-- The `transformed[8 * k1 + k2]` accumulation: for `n1` in `0..32`, for
`n2` in `0..32`, `+= cosines[8*n1+k1] * cosines[8*n2+k2] * (r - 128.0)`. -/
noncomputable def transformedAt (luma : ℕ → ℕ → ℝ) (k1 k2 : ℕ) : ℝ :=
  (List.range 32).foldl (fun acc n1 =>
    (List.range 32).foldl (fun acc2 n2 =>
      acc2 + cosines n1 k1 * cosines n2 k2 * (luma n1 n2 - 128)) acc) 0

/-- The spec's formula:
`T[k1][k2] = Σ_{n1=0}^{31} Σ_{n2=0}^{31} cosines[n1][k1] · cosines[n2][k2] · (luma(n1,n2) − 128)`. -/
noncomputable def Tspec (luma : ℕ → ℕ → ℝ) (k1 k2 : ℕ) : ℝ :=
  ∑ n1 in Finset.range 32, ∑ n2 in Finset.range 32,
    cosines n1 k1 * cosines n2 k2 * (luma n1 n2 - 128)

/-- The flat array entry `transformed[i]` (the slot `8 * k1 + k2 = i`). -/
noncomputable def transformedEntry (luma : ℕ → ℕ → ℝ) (i : ℕ) : ℝ :=
  transformedAt luma (i / 8) (i % 8)

/-- The `average` accumulation: for `i` in `1..64`,
`average += transformed[i] / 63.0`. -/
noncomputable def averageVal (luma : ℕ → ℕ → ℝ) : ℝ :=
  (List.range' 1 63).foldl (fun acc i => acc + transformedEntry luma i / 63) 0

/-- The `hash_value` accumulation: for `i` in `0..64`, if
`transformed[i] >= average` then `hash_value |= 1 << i`. -/
noncomputable def phash (luma : ℕ → ℕ → ℝ) : ℕ :=
  (List.range 64).foldl (fun acc i =>
    if averageVal luma ≤ transformedEntry luma i then acc ||| (1 <<< i) else acc) 0

/-! ### Basic lemmas about the scan -/

theorem scanRev_length_le (a : ProcessedImage) (l : List ProcessedImage) :
    (scanRev a l).2.length ≤ l.length := by
  induction l with
  | nil => simp [scanRev]
  | cons x xs ih =>
    simp only [scanRev]
    by_cases h : is_similar (distance x.sig a.sig)
    · simp [h]; omega
    · simp [h]; omega

theorem scanRev_perm (a : ProcessedImage) (l : List ProcessedImage) :
    ((scanRev a l).1 ++ (scanRev a l).2).Perm l := by
  induction l with
  | nil => simp [scanRev]
  | cons x xs ih =>
    simp only [scanRev]
    by_cases h : is_similar (distance x.sig a.sig)
    · simp only [h, if_true]
      exact (List.perm_cons x).mpr ih
    · simp only [h, if_false]
      exact List.perm_middle.trans ((List.perm_cons x).mpr ih)

theorem scanRev_fst_similar (a : ProcessedImage) (l : List ProcessedImage) :
    ∀ x ∈ (scanRev a l).1, is_similar (distance x.sig a.sig) = true := by
  induction l with
  | nil => simp [scanRev]
  | cons y ys ih =>
    simp only [scanRev]
    by_cases h : is_similar (distance y.sig a.sig)
    · simp only [h, if_true]
      intro x hx
      rcases List.mem_cons.mp hx with rfl | hx
      · exact h
      · exact ih x hx
    · simp only [h, if_false]
      exact ih

/-- Taking `fuel = length` suffices: the result does not depend on the fuel as long
as it is at least the length of the working set. -/
theorem clusterAux_fuel_eq (fuel₁ fuel₂ : Nat) (l : List ProcessedImage)
    (h₁ : l.length ≤ fuel₁) (h₂ : l.length ≤ fuel₂) :
    clusterAux fuel₁ l = clusterAux fuel₂ l := by
  induction fuel₁ generalizing fuel₂ l with
  | zero =>
    have : l = [] := List.length_eq_zero.mp (Nat.le_zero.mp h₁)
    subst this
    cases fuel₂ <;> simp [clusterAux]
  | succ f ih =>
    cases l with
    | nil => cases fuel₂ <;> simp [clusterAux]
    | cons a rest =>
      cases fuel₂ with
      | zero => simp at h₂
      | succ f₂ =>
        simp only [clusterAux]
        have hlen : (scanRev a rest).2.length ≤ rest.length := scanRev_length_le a rest
        have hr : rest.length ≤ f := by simpa using h₁
        have hr₂ : rest.length ≤ f₂ := by simpa using h₂
        rw [ih f₂ (scanRev a rest).2 (le_trans hlen hr) (le_trans hlen hr₂)]

theorem clusterAux_join_perm (fuel : Nat) (l : List ProcessedImage)
    (h : l.length ≤ fuel) : ((clusterAux fuel l).flatten).Perm l := by
  induction fuel generalizing l with
  | zero =>
    have : l = [] := List.length_eq_zero.mp (Nat.le_zero.mp h)
    subst this; simp [clusterAux]
  | succ f ih =>
    cases l with
    | nil => simp [clusterAux]
    | cons a rest =>
      simp only [clusterAux, List.flatten]
      have hlen : (scanRev a rest).2.length ≤ rest.length := scanRev_length_le a rest
      have hr : rest.length ≤ f := by simpa using h
      have hjoin := ih (scanRev a rest).2 (le_trans hlen hr)
      have h1 : (((scanRev a rest).1 ++ [a]) ++ (clusterAux f (scanRev a rest).2).flatten).Perm
          (((scanRev a rest).1 ++ [a]) ++ (scanRev a rest).2) :=
        List.Perm.append_left _ hjoin
      have h2 : ((scanRev a rest).1 ++ [a]) ++ (scanRev a rest).2
          = (scanRev a rest).1 ++ a :: (scanRev a rest).2 := by simp
      have h3 : ((scanRev a rest).1 ++ a :: (scanRev a rest).2).Perm
          (a :: ((scanRev a rest).1 ++ (scanRev a rest).2)) := List.perm_middle
      have h4 : (a :: ((scanRev a rest).1 ++ (scanRev a rest).2)).Perm (a :: rest) :=
        (List.perm_cons a).mpr (scanRev_perm a rest)
      exact h1.trans (h2 ▸ (h3.trans h4))

theorem clusterAux_groups (fuel : Nat) (l : List ProcessedImage) :
    ∀ g ∈ clusterAux fuel l, ∃ ns a, g = ns ++ [a] ∧
      ∀ x ∈ ns, is_similar (distance x.sig a.sig) = true := by
  induction fuel generalizing l with
  | zero => simp [clusterAux]
  | succ f ih =>
    cases l with
    | nil => simp [clusterAux]
    | cons a rest =>
      simp only [clusterAux]
      intro g hg
      rcases List.mem_cons.mp hg with rfl | hg
      · exact ⟨(scanRev a rest).1, a, rfl, scanRev_fst_similar a rest⟩
      · exact ih _ g hg

theorem cluster_join_perm (l : List ProcessedImage) : ((cluster l).flatten).Perm l := by
  have h := clusterAux_join_perm l.reverse.length l.reverse (le_refl _)
  exact h.trans (List.reverse_perm l)

theorem cluster_groups (l : List ProcessedImage) :
    ∀ g ∈ cluster l, ∃ ns a, g = ns ++ [a] ∧
      ∀ x ∈ ns, is_similar (distance x.sig a.sig) = true :=
  clusterAux_groups _ _

theorem cluster_groups_ne_nil (l : List ProcessedImage) :
    ∀ g ∈ cluster l, g ≠ [] := by
  intro g hg
  obtain ⟨ns, a, rfl, -⟩ := cluster_groups l g hg
  simp

/-! ### The descending stable sort of groups -/

theorem insertByLen_perm (a : List ProcessedImage) (l : List (List ProcessedImage)) :
    (insertByLen a l).Perm (a :: l) := by
  induction l with
  | nil => simp [insertByLen]
  | cons b bs ih =>
    simp only [insertByLen]
    by_cases h : b.length > a.length
    · simp only [h, if_true]
      exact ((ih.cons b).trans (List.Perm.swap a b bs)).symm.symm
    · simp [h]

theorem sortGroups_perm (gs : List (List ProcessedImage)) :
    (sortGroups gs).Perm gs := by
  induction gs with
  | nil => simp [sortGroups]
  | cons g gs ih =>
    simp only [sortGroups, List.foldr]
    exact (insertByLen_perm g _).trans ((ih.cons g).symm.symm)

theorem mem_insertByLen {x a : List ProcessedImage} {l : List (List ProcessedImage)}
    (hx : x ∈ insertByLen a l) : x = a ∨ x ∈ l := by
  have := (insertByLen_perm a l).mem_iff.mp hx
  simpa using this

theorem insertByLen_sorted (a : List ProcessedImage) (l : List (List ProcessedImage))
    (h : l.Pairwise (fun g h => h.length ≤ g.length)) :
    (insertByLen a l).Pairwise (fun g h => h.length ≤ g.length) := by
  induction l with
  | nil => simp [insertByLen]
  | cons b bs ih =>
    simp only [insertByLen]
    rcases List.pairwise_cons.mp h with ⟨hb, hbs⟩
    by_cases hba : b.length > a.length
    · simp only [hba, if_true]
      refine List.pairwise_cons.mpr ⟨?_, ih hbs⟩
      intro x hx
      rcases mem_insertByLen hx with rfl | hx
      · omega
      · exact hb x hx
    · simp only [hba, if_false]
      refine List.pairwise_cons.mpr ⟨?_, h⟩
      intro x hx
      rcases List.mem_cons.mp hx with rfl | hx
      · omega
      · have := hb x hx; omega

theorem sortGroups_sorted (gs : List (List ProcessedImage)) :
    (sortGroups gs).Pairwise (fun g h => h.length ≤ g.length) := by
  induction gs with
  | nil => simp [sortGroups]
  | cons g gs ih => exact insertByLen_sorted g _ ih

/-- Stability: among groups of any one fixed length, `insertByLen` preserves
relative order, the inserted group coming first. -/
theorem insertByLen_filter (a : List ProcessedImage) (l : List (List ProcessedImage))
    (k : Nat) :
    (insertByLen a l).filter (fun g => g.length == k)
      = (a :: l).filter (fun g => g.length == k) := by
  induction l with
  | nil => simp [insertByLen]
  | cons b bs ih =>
    simp only [insertByLen]
    by_cases hba : b.length > a.length
    · by_cases hbk : b.length = k
      · have hak : (a.length == k) = false := beq_eq_false_iff_ne.mpr (by omega)
        have hbkT : (b.length == k) = true := beq_iff_eq.mpr hbk
        simp only [hba, if_true, List.filter_cons, hbkT, ih, hak, Bool.false_eq_true,
          if_false]
      · have hbkF : (b.length == k) = false := beq_eq_false_iff_ne.mpr hbk
        simp only [hba, if_true, List.filter_cons, hbkF, Bool.false_eq_true, if_false, ih]
    · simp [hba]

theorem sortGroups_filter (gs : List (List ProcessedImage)) (k : Nat) :
    (sortGroups gs).filter (fun g => g.length == k)
      = gs.filter (fun g => g.length == k) := by
  induction gs with
  | nil => simp [sortGroups]
  | cons g gs ih =>
    simp only [sortGroups, List.foldr] at ih ⊢
    rw [insertByLen_filter, List.filter_cons, List.filter_cons, ih]

/-! ### Hamming distance lemmas -/

theorem length_filter_range_eq_card (n : Nat) (q : Nat → Bool) :
    ((List.range n).filter q).length = ((Finset.range n).filter (fun i => q i = true)).card := by
  induction n with
  | zero => simp
  | succ m ih =>
    rw [List.range_succ, List.filter_append, List.length_append, ih, Finset.range_succ,
      Finset.filter_insert]
    by_cases hq : q m = true
    · rw [if_pos hq, Finset.card_insert_of_not_mem (by simp)]
      simp [hq]
    · rw [if_neg hq]
      simp [hq]

theorem distance_eq_hamming (a b : Nat) :
    distance a b = ((Finset.range 64).filter (fun i => a.testBit i ≠ b.testBit i)).card := by
  unfold distance count_ones
  rw [length_filter_range_eq_card]
  congr 1
  apply Finset.filter_congr
  intro i _
  rw [Nat.testBit_xor]
  cases a.testBit i <;> cases b.testBit i <;> simp

theorem distance_self (a : Nat) : distance a a = 0 := by
  unfold distance count_ones
  simp

theorem distance_le_64 (a b : Nat) : distance a b ≤ 64 := by
  unfold distance count_ones
  have h := List.length_filter_le (fun i => (a ^^^ b).testBit i) (List.range 64)
  simpa using h

theorem testBit_eq_of_ge {a : Nat} (ha : a < 2 ^ 64) {i : Nat} (hi : 64 ≤ i) :
    a.testBit i = false := by
  apply Nat.testBit_lt_two_pow
  calc a < 2 ^ 64 := ha
    _ ≤ 2 ^ i := Nat.pow_le_pow_right (by omega) hi

/-! ### Fold lemmas -/

theorem foldl_add_eq (f : ℕ → ℝ) (l : List ℕ) (c : ℝ) :
    l.foldl (fun a i => a + f i) c = c + (l.map f).sum := by
  induction l generalizing c with
  | nil => simp
  | cons x xs ih =>
    rw [List.foldl_cons, ih]
    simp [add_assoc]

theorem sum_map_range (n : ℕ) (f : ℕ → ℝ) :
    ((List.range n).map f).sum = ∑ i in Finset.range n, f i := by
  induction n with
  | zero => simp
  | succ m ih =>
    rw [List.range_succ, List.map_append, List.sum_append, ih, Finset.sum_range_succ]
    simp

theorem transformedAt_eq_Tspec (luma : ℕ → ℕ → ℝ) (k1 k2 : ℕ) :
    transformedAt luma k1 k2 = Tspec luma k1 k2 := by
  unfold transformedAt Tspec
  have inner : ∀ (acc : ℝ) (n1 : ℕ),
      (List.range 32).foldl (fun acc2 n2 =>
        acc2 + cosines n1 k1 * cosines n2 k2 * (luma n1 n2 - 128)) acc
      = acc + ∑ n2 in Finset.range 32, cosines n1 k1 * cosines n2 k2 * (luma n1 n2 - 128) := by
    intro acc n1
    rw [foldl_add_eq, sum_map_range]
  have houter := @List.foldl_ext ℝ ℕ
    (fun acc n1 => (List.range 32).foldl (fun acc2 n2 =>
      acc2 + cosines n1 k1 * cosines n2 k2 * (luma n1 n2 - 128)) acc)
    (fun acc n1 => acc + ∑ n2 in Finset.range 32,
      cosines n1 k1 * cosines n2 k2 * (luma n1 n2 - 128))
    (0 : ℝ) (List.range 32) (fun acc n1 _ => inner acc n1)
  rw [houter, foldl_add_eq, sum_map_range]
  simp

theorem averageVal_eq (luma : ℕ → ℕ → ℝ) :
    averageVal luma = (∑ i in Finset.Ico 1 64, transformedEntry luma i) / 63 := by
  unfold averageVal
  rw [foldl_add_eq (fun i => transformedEntry luma i / 63), List.range'_eq_map_range]
  rw [List.map_map, sum_map_range]
  rw [Finset.sum_Ico_eq_sum_range]
  rw [Finset.sum_div]
  simp [Function.comp]

theorem testBit_foldl_or (P : ℕ → Prop) [DecidablePred P] (n i : ℕ) :
    (((List.range n).foldl (fun acc j => if P j then acc ||| (1 <<< j) else acc) 0).testBit i
      = true) ↔ i < n ∧ P i := by
  induction n with
  | zero => simp
  | succ m ih =>
    rw [List.range_succ, List.foldl_append, List.foldl_cons, List.foldl_nil]
    by_cases hm : P m
    · rw [if_pos hm]
      have hshift : ((1 <<< m).testBit i = true) ↔ m = i := by
        rw [Nat.shiftLeft_eq, one_mul, Nat.testBit_two_pow]
        simp
      rw [Nat.testBit_or, Bool.or_eq_true, ih, hshift]
      constructor
      · rintro (⟨hi, hp⟩ | rfl)
        · exact ⟨by omega, hp⟩
        · exact ⟨by omega, hm⟩
      · rintro ⟨hi, hp⟩
        by_cases him : i = m
        · right; omega
        · left; exact ⟨by omega, hp⟩
    · rw [if_neg hm, ih]
      constructor
      · rintro ⟨hi, hp⟩; exact ⟨by omega, hp⟩
      · rintro ⟨hi, hp⟩
        refine ⟨?_, hp⟩
        by_cases him : i = m
        · subst him; exact absurd hp hm
        · omega

theorem foldl_or_lt (P : ℕ → Prop) [DecidablePred P] (n : ℕ) :
    (List.range n).foldl (fun acc j => if P j then acc ||| (1 <<< j) else acc) 0 < 2 ^ n := by
  induction n with
  | zero => simp
  | succ m ih =>
    rw [List.range_succ, List.foldl_append, List.foldl_cons, List.foldl_nil]
    have hle : (2 : ℕ) ^ m ≤ 2 ^ (m + 1) := Nat.pow_le_pow_right (by omega) (by omega)
    by_cases hm : P m
    · rw [if_pos hm]
      apply Nat.or_lt_two_pow
      · exact lt_of_lt_of_le ih hle
      · rw [Nat.shiftLeft_eq, one_mul]
        exact Nat.pow_lt_pow_right (by omega) (by omega)
    · rw [if_neg hm]
      exact lt_of_lt_of_le ih hle

theorem phash_testBit (luma : ℕ → ℕ → ℝ) (i : ℕ) :
    ((phash luma).testBit i = true) ↔ i < 64 ∧ averageVal luma ≤ transformedEntry luma i :=
  testBit_foldl_or (fun j => averageVal luma ≤ transformedEntry luma j) 64 i

theorem phash_lt_two_pow (luma : ℕ → ℕ → ℝ) : phash luma < 2 ^ 64 :=
  foldl_or_lt (fun j => averageVal luma ≤ transformedEntry luma j) 64

/-! ## Size-independence machinery

Clustering and naming read only `sig` and `path`; any map on images that
preserves the signature commutes with clustering, and one that also
preserves the path commutes with naming. -/

theorem scanRev_map (f : ProcessedImage → ProcessedImage)
    (hf : ∀ x, (f x).sig = x.sig) (a : ProcessedImage) (l : List ProcessedImage) :
    scanRev (f a) (l.map f) = ((scanRev a l).1.map f, (scanRev a l).2.map f) := by
  induction l with
  | nil => simp [scanRev]
  | cons x xs ih =>
    simp only [List.map_cons, scanRev, ih, hf]
    by_cases h : is_similar (distance x.sig a.sig) <;> simp [h]

theorem clusterAux_map (f : ProcessedImage → ProcessedImage)
    (hf : ∀ x, (f x).sig = x.sig) (fuel : Nat) (l : List ProcessedImage) :
    clusterAux fuel (l.map f) = (clusterAux fuel l).map (List.map f) := by
  induction fuel generalizing l with
  | zero => simp [clusterAux]
  | succ m ih =>
    cases l with
    | nil => simp [clusterAux]
    | cons a rest =>
      simp only [List.map_cons, clusterAux, scanRev_map f hf, ih, List.map_append]
      simp

theorem cluster_map (f : ProcessedImage → ProcessedImage)
    (hf : ∀ x, (f x).sig = x.sig) (l : List ProcessedImage) :
    cluster (l.map f) = (cluster l).map (List.map f) := by
  unfold cluster
  rw [← List.map_reverse, List.length_map, clusterAux_map f hf]

theorem insertByLen_map (f : ProcessedImage → ProcessedImage)
    (g : List ProcessedImage) (gs : List (List ProcessedImage)) :
    insertByLen (g.map f) (gs.map (List.map f)) = (insertByLen g gs).map (List.map f) := by
  induction gs with
  | nil => simp [insertByLen]
  | cons b bs ih =>
    simp only [List.map_cons, insertByLen, List.length_map, ih]
    by_cases h : b.length > g.length <;> simp [h]

theorem sortGroups_map (f : ProcessedImage → ProcessedImage)
    (gs : List (List ProcessedImage)) :
    sortGroups (gs.map (List.map f)) = (sortGroups gs).map (List.map f) := by
  induction gs with
  | nil => simp [sortGroups]
  | cons g gs ih =>
    simp only [List.map_cons, sortGroups, List.foldr] at ih ⊢
    rw [ih, insertByLen_map]

theorem dedupe_map (f : ProcessedImage → ProcessedImage)
    (hf : ∀ x, (f x).sig = x.sig) (l : List ProcessedImage) :
    dedupe (l.map f) = (dedupe l).map (List.map f) := by
  unfold dedupe
  rw [cluster_map f hf, sortGroups_map]

theorem getLast?_map_lemma (f : ProcessedImage → ProcessedImage)
    (l : List ProcessedImage) : (l.map f).getLast? = l.getLast?.map f := by
  induction l with
  | nil => simp
  | cons x xs ih =>
    cases xs with
    | nil => simp
    | cons y ys => simpa using ih

theorem assignNames_map (f : ProcessedImage → ProcessedImage)
    (hf : ∀ x, (f x).sig = x.sig) (hp : ∀ x, (f x).path = x.path)
    (g : List ProcessedImage) : assignNames (g.map f) = assignNames g := by
  unfold assignNames
  rw [getLast?_map_lemma]
  cases hl : g.getLast? with
  | none => simp
  | some c =>
    simp only [Option.map_some', List.enum_map, List.map_map]
    apply List.map_congr_left
    intro p _
    simp [Function.comp, hf, hp]

/-! ### Properties of the hex rendering and of the per-member names -/

theorem toHex16_length (n : Nat) : (toHex16 n).length = 16 := by
  simp [toHex16, String.length]

theorem hexDigit_mem (d : Nat) (hd : d < 16) : hexDigit d ∈ "0123456789abcdef".data := by
  interval_cases d <;> decide

theorem toHex16_chars (n : Nat) : ∀ ch ∈ (toHex16 n).data, ch ∈ "0123456789abcdef".data := by
  intro ch hch
  simp only [toHex16, String.data, List.mem_map, List.mem_range] at hch
  obtain ⟨i, -, rfl⟩ := hch
  exact hexDigit_mem _ (Nat.mod_lt _ (by omega))

theorem new_filename_eq_specName (canon member : ProcessedImage) (rank : Nat) :
    new_filename member.path canon.sig member.sig rank = specName canon member rank := by
  unfold new_filename specName
  by_cases h : rank = 0
  · cases hse : supported_extension member.path <;>
      simp [h, hse, String.append_empty, String.append_assoc]
  · cases hse : supported_extension member.path <;>
      simp [h, hse, String.append_empty, String.append_assoc]

theorem assignNames_length (g : List ProcessedImage) (canon : ProcessedImage)
    (hc : g.getLast? = some canon) : (assignNames g).length = g.length := by
  unfold assignNames
  rw [hc]
  simp [List.enum_length]

theorem assignNames_getD (g : List ProcessedImage) (canon : ProcessedImage)
    (hc : g.getLast? = some canon) (i : Fin g.length) :
    (assignNames g).getD i ""
      = new_filename (g.getD i default).path canon.sig (g.getD i default).sig i := by
  unfold assignNames
  rw [hc]
  have hi : (i : Nat) < (g.enum.map
      (fun p => new_filename p.2.path canon.sig p.2.sig p.1)).length := by
    simp [List.enum_length, i.isLt]
  rw [List.getD_eq_getElem _ _ hi, List.getElem_map,
    List.getElem_enum, List.getD_eq_getElem _ _ i.isLt]

theorem mem_dedupe_iff_mem_cluster (l : List ProcessedImage)
    (g : List ProcessedImage) : g ∈ dedupe l ↔ g ∈ cluster l :=
  (sortGroups_perm (cluster l)).mem_iff

/-- Full characterization of the extension table: exactly eight lowercased
extensions are recognized; in particular the only `-large` variants are
`png-large` and `jpg-large`. -/
theorem extFormat_eq (s : String) :
    extFormat s =
      if s = "gif" then some ImageFormat.GIF
      else if s = "png" then some ImageFormat.PNG
      else if s = "png-large" then some ImageFormat.PNG
      else if s = "jpg" then some ImageFormat.JPEG
      else if s = "jpeg" then some ImageFormat.JPEG
      else if s = "jpe" then some ImageFormat.JPEG
      else if s = "jpg-large" then some ImageFormat.JPEG
      else if s = "webp" then some ImageFormat.WEBP
      else none := by
  unfold extFormat
  split
  · rfl
  · rfl
  · rfl
  · rfl
  · rfl
  · rfl
  · rfl
  · rfl
  · rename_i h1 h2 h3 h4 h5 h6 h7 h8
    rw [if_neg h1, if_neg h2, if_neg h3, if_neg h4, if_neg h5, if_neg h6, if_neg h7,
      if_neg h8]

/-! ## The claims -/

/-- C1: `PHash::new` follows the exact order-sensitive algorithm on the
32×32 luma grid: the cosine table is
`cosines[n][k] = cos(π/32 · (n + 0.5) · k)`; the accumulated coefficient at
flat index `8·k1+k2` equals
`T[k1][k2] = Σ_{n1<32} Σ_{n2<32} cosines[n1][k1]·cosines[n2][k2]·(luma(n1,n2) − 128)`;
`average` is the mean of the 63 coefficients at indices `1..64` (DC term
excluded); and bit `i` of the 64-bit fingerprint is set iff
`T[i] >= average` (floating-point `f32` idealized as `ℝ`). -/
theorem phash_follows_dct_spec (luma : ℕ → ℕ → ℝ) :
    (∀ (n : Fin 32) (k : Fin 8),
        cosines n k = Real.cos (Real.pi / 32 * (((n : ℕ) : ℝ) + 0.5) * ((k : ℕ) : ℝ)))
    ∧ (∀ (k1 k2 : Fin 8), transformedAt luma k1 k2 = Tspec luma k1 k2)
    ∧ (∀ (i : Fin 64), transformedEntry luma i = Tspec luma ((i : ℕ) / 8) ((i : ℕ) % 8))
    ∧ averageVal luma = (∑ i in Finset.Ico 1 64, transformedEntry luma i) / 63
    ∧ (∀ (i : Fin 64), ((phash luma).testBit i = true)
        ↔ averageVal luma ≤ transformedEntry luma i)
    ∧ phash luma < 2 ^ 64 := by
  refine ⟨fun n k => rfl, fun k1 k2 => transformedAt_eq_Tspec luma k1 k2,
    fun i => transformedAt_eq_Tspec luma _ _,
    averageVal_eq luma, fun i => ?_, phash_lt_two_pow luma⟩
  rw [phash_testBit]
  simp [i.isLt]

/-- C2: the clustering loop pops an anchor, removes every remaining item
similar to it (scanning the working set from its end), and emits the group
with the anchor appended last: every emitted group is `ns ++ [a]` with each
member of `ns` similar to the anchor `a`.  The second conjunct exhibits a
concrete run whose group contains two members that are *not* similar to
each other (non-transitive clustering). -/
theorem cluster_group_anchor (l : List ProcessedImage) :
    (∀ g ∈ cluster l, ∃ ns a, g = ns ++ [a] ∧
        ∀ x ∈ ns, is_similar (distance x.sig a.sig) = true)
    ∧ (∃ g ∈ cluster [⟨0, "a", 1⟩, ⟨255, "b", 1⟩, ⟨1, "c", 1⟩],
        ∃ x ∈ g, ∃ y ∈ g, is_similar (distance x.sig y.sig) = false) :=
  ⟨cluster_groups l, by decide⟩

/-- Witness for C2: in the two-image run `[sig 0, sig 1]` the single emitted
group splits as neighbors plus trailing anchor, all neighbors similar to
the anchor. -/
theorem cluster_group_anchor_witness :
    ∃ ns a, ([⟨0, "a", 1⟩, ⟨1, "b", 1⟩] : List ProcessedImage) = ns ++ [a] ∧
      ∀ x ∈ ns, is_similar (distance x.sig a.sig) = true :=
  (cluster_group_anchor [⟨0, "a", 1⟩, ⟨1, "b", 1⟩]).1
    [⟨0, "a", 1⟩, ⟨1, "b", 1⟩] (by decide)

/-- C3: clustering is a partition — the concatenation of the output groups
is a permutation of the input (no duplicate, no omission), every group is
non-empty, the empty input gives an empty group sequence, and a singleton
input gives exactly one singleton group. -/
theorem cluster_partition (l : List ProcessedImage) :
    ((dedupe l).flatten).Perm l
    ∧ (∀ g ∈ dedupe l, g ≠ [])
    ∧ dedupe ([] : List ProcessedImage) = []
    ∧ (∀ x : ProcessedImage, dedupe [x] = [[x]]) := by
  refine ⟨?_, ?_, rfl, fun x => rfl⟩
  · exact ((sortGroups_perm (cluster l)).flatten).trans (cluster_join_perm l)
  · intro g hg
    exact cluster_groups_ne_nil l g ((mem_dedupe_iff_mem_cluster l g).mp hg)

/-- Witness for C3 at concrete inputs. -/
theorem cluster_partition_witness :
    ((dedupe [⟨0, "a", 1⟩, ⟨9, "b", 2⟩]).flatten).Perm [⟨0, "a", 1⟩, ⟨9, "b", 2⟩]
    ∧ ([⟨0, "a", 1⟩] : List ProcessedImage) ≠ [] :=
  ⟨(cluster_partition [⟨0, "a", 1⟩, ⟨9, "b", 2⟩]).1,
   (cluster_partition [⟨0, "a", 1⟩]).2.1 [⟨0, "a", 1⟩] (by decide)⟩

/-- C5: `is_similar d` holds exactly when `d < 8`; distance 7 is similar,
distance 8 is not, and every fingerprint is similar to itself. -/
theorem is_similar_threshold :
    (∀ d : Nat, (is_similar d = true) ↔ d < 8)
    ∧ is_similar 7 = true
    ∧ is_similar 8 = false
    ∧ ∀ a : Nat, is_similar (distance a a) = true := by
  refine ⟨fun d => ?_, by decide, by decide, fun a => ?_⟩
  · simp [is_similar]
  · rw [distance_self]; decide

/-- C6: for 64-bit fingerprints, `distance` is the Hamming distance — the
number of differing bit positions (all of which lie below 64) — bounded by
64, and zero on equal arguments. -/
theorem distance_is_hamming (a b : Nat) (ha : a < 2 ^ 64) (hb : b < 2 ^ 64) :
    distance a b = ((Finset.range 64).filter (fun i => a.testBit i ≠ b.testBit i)).card
    ∧ (∀ i : Nat, a.testBit i ≠ b.testBit i → i < 64)
    ∧ distance a b ≤ 64
    ∧ distance a a = 0 := by
  refine ⟨distance_eq_hamming a b, ?_, distance_le_64 a b, distance_self a⟩
  intro i hi
  by_contra hge
  push_neg at hge
  exact hi (by rw [testBit_eq_of_ge ha hge, testBit_eq_of_ge hb hge])

/-- Witness for C6 at `a = 3`, `b = 5`. -/
theorem distance_is_hamming_witness :
    distance 3 5
        = ((Finset.range 64).filter (fun i => Nat.testBit 3 i ≠ Nat.testBit 5 i)).card
    ∧ (∀ i : Nat, Nat.testBit 3 i ≠ Nat.testBit 5 i → i < 64)
    ∧ distance 3 5 ≤ 64
    ∧ distance 3 3 = 0 :=
  distance_is_hamming 3 5 (by decide) (by decide)

/-- C7: the emitted sequence of groups is sorted by descending member
count (`groups[i].len() >= groups[i+1].len()` at every index, stated both
as `Pairwise` and positionally with out-of-range defaulting to `[]`), and
the sort is stable: among groups of any fixed size the construction order
of the clustering loop is preserved. -/
theorem groups_sorted_desc (l : List ProcessedImage) :
    List.Pairwise (fun g h => h.length ≤ g.length) (dedupe l)
    ∧ (∀ i : Nat, ((dedupe l).getD (i + 1) []).length ≤ ((dedupe l).getD i []).length)
    ∧ ∀ k : Nat, (dedupe l).filter (fun g => g.length == k)
        = (cluster l).filter (fun g => g.length == k) := by
  refine ⟨sortGroups_sorted (cluster l), fun i => ?_,
    fun k => sortGroups_filter (cluster l) k⟩
  by_cases hi : i + 1 < (dedupe l).length
  · have hi0 : i < (dedupe l).length := by omega
    rw [List.getD_eq_getElem _ _ hi, List.getD_eq_getElem _ _ hi0]
    have hp : List.Pairwise (fun g h => h.length ≤ g.length) (dedupe l) :=
      sortGroups_sorted (cluster l)
    have := List.pairwise_iff_get.mp hp ⟨i, hi0⟩ ⟨i + 1, hi⟩ (by simp [Fin.lt_def])
    simpa using this
  · rw [List.getD_eq_default _ _ (by omega)]
    simp

/-- C9: `distance` is symmetric. -/
theorem distance_symm (a b : Nat) : distance a b = distance b a := by
  unfold distance
  rw [Nat.xor_comm]

/-- C4 counterexample: in the two-image run `[sig 0 "a.png", sig 1 "b.png"]`
clustering emits the single group `[sig 0, sig 1]`; its canonical member
(the last item, whose signature names the group) is `sig 1`, yet rank 0 —
the bare canonical-hex basename — goes to the *first* member `sig 0`, and
the canonical member itself receives the dashed rank-1 name.  Rank 0 is
therefore not assigned to the canonical member. -/
theorem naming_rank0_counterexample :
    cluster [⟨0, "a.png", 1⟩, ⟨1, "b.png", 1⟩]
        = [[⟨0, "a.png", 1⟩, ⟨1, "b.png", 1⟩]]
    ∧ ([⟨0, "a.png", 1⟩, ⟨1, "b.png", 1⟩] : List ProcessedImage).getLast?
        ≠ some ⟨0, "a.png", 1⟩
    ∧ assignNames [⟨0, "a.png", 1⟩, ⟨1, "b.png", 1⟩]
        = ["0000000000000001.png", "0000000000000001-1-0000000000000001.png"] := by
  refine ⟨by decide, by decide, by decide⟩

/-- C4 (amended): in every group produced by clustering, the canonical
member is the *last* item and rank 0 goes to the *first* item in iteration
order (these coincide only for singleton groups); the rank-0 basename is
the canonical fingerprint as 16 lowercase hex digits, and every rank `> 0`
gets basename `"{canonical_hex}-{rank}-{member_hex}"` (`specName`), with
the extension derived from the member's recognized format. -/
theorem naming_scheme_amended (l g : List ProcessedImage) (hg : g ∈ dedupe l) :
    ∃ canon, g.getLast? = some canon
    ∧ (assignNames g).length = g.length
    ∧ (toHex16 canon.sig).length = 16
    ∧ (∀ ch ∈ (toHex16 canon.sig).data, ch ∈ "0123456789abcdef".data)
    ∧ ∀ i : Fin g.length,
        (assignNames g).getD i "" = specName canon (g.getD i default) i := by
  have hne : g ≠ [] := cluster_groups_ne_nil l g ((mem_dedupe_iff_mem_cluster l g).mp hg)
  obtain ⟨canon, hc⟩ : ∃ c, g.getLast? = some c := by
    cases hgl : g.getLast? with
    | none => exact absurd (List.getLast?_eq_none_iff.mp hgl) hne
    | some c => exact ⟨c, rfl⟩
  refine ⟨canon, hc, assignNames_length g canon hc, toHex16_length _, toHex16_chars _, ?_⟩
  intro i
  rw [assignNames_getD g canon hc i]
  exact new_filename_eq_specName canon (g.getD i default) i

/-- Witness for the amended C4 at the singleton run `[sig 5 "a.png"]`. -/
theorem naming_scheme_amended_witness :
    ∃ canon, ([⟨5, "a.png", 1⟩] : List ProcessedImage).getLast? = some canon
    ∧ (assignNames [⟨5, "a.png", 1⟩]).length
        = ([⟨5, "a.png", 1⟩] : List ProcessedImage).length
    ∧ (toHex16 canon.sig).length = 16
    ∧ (∀ ch ∈ (toHex16 canon.sig).data, ch ∈ "0123456789abcdef".data)
    ∧ ∀ i : Fin ([⟨5, "a.png", 1⟩] : List ProcessedImage).length,
        (assignNames [⟨5, "a.png", 1⟩]).getD i ""
          = specName canon (([⟨5, "a.png", 1⟩] : List ProcessedImage).getD i default) i :=
  naming_scheme_amended [⟨5, "a.png", 1⟩] [⟨5, "a.png", 1⟩] (by decide)

/-- C8 counterexample: `jpeg` is recognized, but its `-large` variant is
not (nor are `gif-large` and `webp-large`) — only `png-large` and
`jpg-large` appear in the table, so "any `-large` suffix variant" is not
mapped. -/
theorem format_large_counterexample :
    supported_extension "photo.jpeg" = some ImageFormat.JPEG
    ∧ supported_extension "photo.jpeg-large" = none
    ∧ supported_extension "photo.gif-large" = none
    ∧ supported_extension "photo.webp-large" = none := by
  refine ⟨by decide, by decide, by decide, by decide⟩

/-- C8 (amended): format recognition lowercases the extension (ASCII) and
looks it up in a fixed table recognizing exactly
`gif, png, png-large, jpg, jpeg, jpe, jpg-large, webp` — so of the
`-large` variants only `png-large` and `jpg-large` are mapped — returning
no format for everything else; and the output filename's extension is
derived from the recognized format (`gif`/`png`/`jpg`/`webp`), not copied
from the source name. -/
theorem format_recognition_amended :
    (∀ s : String, extFormat s =
      if s = "gif" then some ImageFormat.GIF
      else if s = "png" then some ImageFormat.PNG
      else if s = "png-large" then some ImageFormat.PNG
      else if s = "jpg" then some ImageFormat.JPEG
      else if s = "jpeg" then some ImageFormat.JPEG
      else if s = "jpe" then some ImageFormat.JPEG
      else if s = "jpg-large" then some ImageFormat.JPEG
      else if s = "webp" then some ImageFormat.WEBP
      else none)
    ∧ (∀ p : String, pathExtension p = none → supported_extension p = none)
    ∧ (∀ (p e : String), pathExtension p = some e →
        supported_extension p = extFormat (toAsciiLower e))
    ∧ supported_extension "x.GIF" = some ImageFormat.GIF
    ∧ supported_extension "x.Png-Large" = some ImageFormat.PNG
    ∧ supported_extension "x.jPe" = some ImageFormat.JPEG
    ∧ supported_extension "x.WEBP" = some ImageFormat.WEBP
    ∧ supported_extension "x.bmp" = none
    ∧ (∀ (p : String) (c t v : Nat) (fmt : ImageFormat),
        supported_extension p = some fmt →
        new_filename p c t v
          = (if v ≠ 0 then toHex16 c ++ "-" ++ toString v ++ "-" ++ toHex16 t
             else toHex16 c) ++ "." ++ formatExtension fmt) := by
  refine ⟨extFormat_eq, fun p hp => ?_, fun p e hp => ?_, by decide, by decide, by decide,
    by decide, by decide, fun p c t v fmt hfmt => ?_⟩
  · unfold supported_extension
    rw [hp]
  · unfold supported_extension
    rw [hp]
  · unfold new_filename
    rw [hfmt]

/-- Witness for the amended C8: extension derivation at
`p = "x.JPEG"`, `c = t = 0`, `v = 2`. -/
theorem format_recognition_amended_witness :
    new_filename "x.JPEG" 0 0 2
      = (if (2 : Nat) ≠ 0 then toHex16 0 ++ "-" ++ toString (2 : Nat) ++ "-" ++ toHex16 0
         else toHex16 0) ++ "." ++ formatExtension ImageFormat.JPEG :=
  format_recognition_amended.2.2.2.2.2.2.2.2 "x.JPEG" 0 0 2 ImageFormat.JPEG (by decide)

/-- C10: the `size` field never influences clustering or naming — two runs
agreeing on every item's `sig` and `path` (sizes arbitrary) produce the
same group structure as `(sig, path)` sequences and the same output
names. -/
theorem size_noninterference (l₁ l₂ : List ProcessedImage)
    (h : l₁.map (fun x => (x.sig, x.path)) = l₂.map (fun x => (x.sig, x.path))) :
    (dedupe l₁).map (List.map (fun x => (x.sig, x.path)))
      = (dedupe l₂).map (List.map (fun x => (x.sig, x.path)))
    ∧ (dedupe l₁).map assignNames = (dedupe l₂).map assignNames := by
  have hsig : ∀ x : ProcessedImage,
      ((fun y => (⟨y.sig, y.path, 0⟩ : ProcessedImage)) x).sig = x.sig := fun x => rfl
  have hpath : ∀ x : ProcessedImage,
      ((fun y => (⟨y.sig, y.path, 0⟩ : ProcessedImage)) x).path = x.path := fun x => rfl
  have hfactor : ∀ l : List ProcessedImage,
      l.map (fun y => (⟨y.sig, y.path, 0⟩ : ProcessedImage))
        = (l.map (fun x => (x.sig, x.path))).map (fun p => ⟨p.1, p.2, 0⟩) := by
    intro l
    rw [List.map_map]
    rfl
  have hmapn : l₁.map (fun y => (⟨y.sig, y.path, 0⟩ : ProcessedImage))
      = l₂.map (fun y => (⟨y.sig, y.path, 0⟩ : ProcessedImage)) := by
    rw [hfactor, hfactor, h]
  have key : (dedupe l₁).map (List.map (fun y => (⟨y.sig, y.path, 0⟩ : ProcessedImage)))
      = (dedupe l₂).map (List.map (fun y => (⟨y.sig, y.path, 0⟩ : ProcessedImage))) := by
    rw [← dedupe_map _ hsig l₁, ← dedupe_map _ hsig l₂, hmapn]
  constructor
  · have hproj : ∀ gs : List (List ProcessedImage),
        gs.map (List.map (fun x => (x.sig, x.path)))
          = (gs.map (List.map (fun y => (⟨y.sig, y.path, 0⟩ : ProcessedImage)))).map
              (List.map (fun x => (x.sig, x.path))) := by
      intro gs
      rw [List.map_map]
      congr 1
      funext g
      simp only [Function.comp_apply, List.map_map]
      rfl
    rw [hproj (dedupe l₁), hproj (dedupe l₂), key]
  · have hnames : ∀ gs : List (List ProcessedImage),
        gs.map assignNames
          = (gs.map (List.map (fun y => (⟨y.sig, y.path, 0⟩ : ProcessedImage)))).map
              assignNames := by
      intro gs
      rw [List.map_map]
      congr 1
      funext g
      exact (assignNames_map _ hsig hpath g).symm
    rw [hnames (dedupe l₁), hnames (dedupe l₂), key]

/-- Witness for C10: two singleton runs that differ only in `size`. -/
theorem size_noninterference_witness :
    (dedupe [⟨5, "a.png", 10⟩]).map (List.map (fun x => (x.sig, x.path)))
      = (dedupe [⟨5, "a.png", 99⟩]).map (List.map (fun x => (x.sig, x.path)))
    ∧ (dedupe [⟨5, "a.png", 10⟩]).map assignNames
      = (dedupe [⟨5, "a.png", 99⟩]).map assignNames :=
  size_noninterference [⟨5, "a.png", 10⟩] [⟨5, "a.png", 99⟩] (by decide)
